import Mathlib

/-
Verification development for the ID3 decision-tree classifier in
src/decisionTree.cpp.  The data model (a dataset of string rows with named
header columns and a designated target column), the entropy/information-gain
evaluator, the recursive tree builder and the predictor are embedded as Lean
definitions; floating-point `double` arithmetic is modelled by real numbers.
`std::map` iteration (used for grouping and counting) is modelled by scanning
the distinct keys in ascending lexicographic string order, which is exactly
the iteration order of `std::map<std::string, _>`.
-/

structure DecisionTree where
  data : List (List String)
  headers : List String
  targetColumn : String

/-- Position of the first header equal to `columnName`, or `-1` when absent
(`getColumnIndex` in the source, which uses `std::find`). -/
def getColumnIndex (t : DecisionTree) (columnName : String) : Int :=
  match t.headers.findIdx? (fun h => h == columnName) with
  | some i => (i : Int)
  | none => -1

/-- Cell access `data[i][j]`; the source never checks bounds, so out-of-range
access (undefined behaviour in C++) is modelled totally as `""`. -/
def cellAt (t : DecisionTree) (i : Nat) (j : Int) : String :=
  if 0 ≤ j then (t.data.getD i []).getD j.toNat "" else ""

/-- The value `data[i][getColumnIndex feature]` of row `i` at a named column. -/
def featVal (t : DecisionTree) (feature : String) (i : Nat) : String :=
  cellAt t i (getColumnIndex t feature)

/-- The target-column value of row `i`. -/
def classOf (t : DecisionTree) (i : Nat) : String :=
  featVal t t.targetColumn i

/-- The source's `allSameClass`: compares every row's target value against the
first row's (`data[indices[0]]`); `true` on the empty subset. -/
def allSameClass (t : DecisionTree) (indices : List Nat) : Bool :=
  indices.all (fun j => classOf t j == classOf t indices.headI)

/-- Distinct keys of a `std::map` built by inserting all elements of `l`,
listed in the map's iteration order: ascending lexicographic string order. -/
def sortedKeys (l : List String) : List String :=
  l.dedup.insertionSort (fun a b => a ≤ b)

/-- One step of the running-maximum scan shared by `findBestFeature` and
`getMostCommonClass` in the source: a candidate passing the `ok` filter
replaces the accumulator exactly when its score is strictly greater than the
accumulated score. -/
def selStep {α β : Type} (ltb : β → β → Bool) (ok : α → Bool) (score : α → β)
    (acc : α × β) (x : α) : α × β :=
  if ok x then (if ltb acc.2 (score x) then (x, score x) else acc) else acc

/-- The source's `getMostCommonClass`: scan the count map in its iteration
order (ascending key order), keeping the first class whose count strictly
exceeds the running maximum, which starts at `0` with label `""`. -/
def getMostCommonClass (t : DecisionTree) (indices : List Nat) : String :=
  (List.foldl
    (selStep (fun a b => decide (a < b)) (fun _ => true)
      (fun c => (indices.map (classOf t)).count c))
    ("", 0) (sortedKeys (indices.map (classOf t)))).1

/-- The group of `indices` whose value at `feature` is `v` (one bucket of the
source's `std::map<std::string, std::vector<int>> groups`, which preserves
the index scan order inside each bucket). -/
def groupOf (t : DecisionTree) (indices : List Nat) (feature : String) (v : String) :
    List Nat :=
  indices.filter (fun i => featVal t feature i == v)

/-- The distinct values of `feature` over `indices`, in the iteration order of
the grouping `std::map`: ascending lexicographic order. -/
def groupKeys (t : DecisionTree) (indices : List Nat) (feature : String) : List String :=
  sortedKeys (indices.map (featVal t feature))

/-- The source's `calculateEntropy`: `0.0` for an empty subset, otherwise the
sum over the classes present of `-p * log2 p` where `p` is the class's
empirical probability (the `p > 0` guard of the source is kept). -/
noncomputable def calculateEntropy (t : DecisionTree) (indices : List Nat) : ℝ :=
  if indices.isEmpty then 0
  else
    ∑ c ∈ (indices.map (classOf t)).toFinset,
      (if 0 < ((indices.map (classOf t)).count c : ℝ) / indices.length then
        -((((indices.map (classOf t)).count c : ℝ) / indices.length) *
          Real.logb 2 (((indices.map (classOf t)).count c : ℝ) / indices.length))
      else 0)

/-- The source's `calculateInformationGain`: parent entropy minus the
size-weighted entropies of the groups obtained by partitioning on `feature`. -/
noncomputable def calculateInformationGain (t : DecisionTree) (indices : List Nat)
    (feature : String) : ℝ :=
  calculateEntropy t indices -
    ∑ v ∈ (indices.map (featVal t feature)).toFinset,
      ((groupOf t indices feature v).length : ℝ) / indices.length *
        calculateEntropy t (groupOf t indices feature v)

/-- The source's `findBestFeature`: scan `headers` in order, skipping the
target column and used features, keeping the feature whose gain strictly
exceeds the best gain so far (initially `-1.0` with feature `""`). -/
noncomputable def findBestFeature (t : DecisionTree) (indices : List Nat)
    (used : Finset String) : String :=
  (List.foldl
    (selStep (fun a b => decide (a < b))
      (fun f => decide (f ≠ t.targetColumn ∧ f ∉ used))
      (fun f => calculateInformationGain t indices f))
    ("", -1) t.headers).1

lemma foldl_selStep_fst {α β : Type} (ltb : β → β → Bool) (ok : α → Bool)
    (score : α → β) :
    ∀ (l : List α) (acc : α × β),
      (l.foldl (selStep ltb ok score) acc).1 = acc.1 ∨
        ((l.foldl (selStep ltb ok score) acc).1 ∈ l ∧
          ok (l.foldl (selStep ltb ok score) acc).1 = true) := by
  intro l
  induction l with
  | nil => intro acc; exact Or.inl rfl
  | cons x xs ih =>
    intro acc
    rw [List.foldl_cons]
    rcases ih (selStep ltb ok score acc x) with h | h
    · rw [h]
      unfold selStep
      by_cases hok : ok x
      · by_cases hlt : ltb acc.2 (score x)
        · right
          rw [if_pos hok, if_pos hlt]
          exact ⟨List.mem_cons_self x xs, hok⟩
        · left; rw [if_pos hok, if_neg hlt]
      · left; rw [if_neg hok]
    · right
      exact ⟨List.mem_cons_of_mem x h.1, h.2⟩

/-- A scanned feature returned by `findBestFeature` is either the sentinel `""`
or an eligible header. -/
lemma findBestFeature_eligible (t : DecisionTree) (indices : List Nat)
    (used : Finset String) (h : findBestFeature t indices used ≠ "") :
    findBestFeature t indices used ∈ t.headers ∧
      findBestFeature t indices used ≠ t.targetColumn ∧
      findBestFeature t indices used ∉ used := by
  unfold findBestFeature at *
  rcases foldl_selStep_fst (fun a b => decide (a < b))
      (fun f => decide (f ≠ t.targetColumn ∧ f ∉ used))
      (fun f => calculateInformationGain t indices f) t.headers ("", -1) with hc | hc
  · exact absurd hc h
  · refine ⟨hc.1, ?_⟩
    have := of_decide_eq_true hc.2
    exact this

/-- Strict decrease of a filtered length when one new element fails the
stronger filter. -/
lemma length_filter_lt_of_mem {α : Type} {l : List α} {p q : α → Bool} {x : α}
    (hx : x ∈ l) (hpx : p x = true) (hqx : q x = false)
    (himp : ∀ a, q a = true → p a = true) :
    (l.filter q).length < (l.filter p).length := by
  rw [← List.countP_eq_length_filter, ← List.countP_eq_length_filter]
  induction l with
  | nil => cases hx
  | cons a as ih =>
    rw [List.countP_cons, List.countP_cons]
    rcases List.mem_cons.1 hx with rfl | hmem
    · rw [hpx, hqx]
      have hle : as.countP q ≤ as.countP p :=
        List.countP_mono_left (fun a _ hqa => himp a hqa)
      rw [if_pos rfl, if_neg Bool.false_ne_true]
      omega
    · have hrec := ih hmem
      have hif : (if q a = true then 1 else 0) ≤ (if p a = true then 1 else 0) := by
        by_cases hqa : q a = true
        · rw [if_pos hqa, if_pos (himp a hqa)]
        · rw [if_neg hqa]
          omega
      omega

/-- Number of features still eligible for splitting given a used-feature set. -/
def eligCount (t : DecisionTree) (used : Finset String) : Nat :=
  (t.headers.filter (fun f => decide (f ≠ t.targetColumn ∧ f ∉ used))).length

lemma eligCount_insert_lt (t : DecisionTree) (indices : List Nat)
    (used : Finset String) (h : ¬ findBestFeature t indices used = "") :
    eligCount t (insert (findBestFeature t indices used) used) < eligCount t used := by
  obtain ⟨hmem, hne, hnu⟩ := findBestFeature_eligible t indices used h
  unfold eligCount
  refine length_filter_lt_of_mem hmem ?_ ?_ ?_
  · exact decide_eq_true ⟨hne, hnu⟩
  · refine decide_eq_false ?_
    intro hcon
    exact hcon.2 (Finset.mem_insert_self _ _)
  · intro a ha
    have ha' := of_decide_eq_true ha
    refine decide_eq_true ⟨ha'.1, fun hm => ha'.2 (Finset.mem_insert_of_mem hm)⟩

/-- Trees produced by `buildTree`: either a leaf with a stored prediction, or a
decision node carrying the split feature and the ordered `(edge value, child)`
pairs. -/
inductive TreeNode where
  | leaf (prediction : String) : TreeNode
  | node (feature : String) (children : List (String × TreeNode)) : TreeNode


/-- The source's `buildTree`: empty subset gives the `"Unknown"` leaf, a pure
subset gives a leaf with its class, exhaustion of eligible features gives a
majority leaf, and otherwise a decision node is assembled over the groups of
the best feature, scanned in the grouping map's iteration order. -/
noncomputable def buildTree (t : DecisionTree) (indices : List Nat)
    (used : Finset String) : TreeNode :=
  if indices = [] then .leaf "Unknown"
  else if allSameClass t indices then .leaf (classOf t indices.headI)
  else if h : findBestFeature t indices used = "" then
    .leaf (getMostCommonClass t indices)
  else
    .node (findBestFeature t indices used)
      ((groupKeys t indices (findBestFeature t indices used)).map
        (fun v =>
          (v, buildTree t (groupOf t indices (findBestFeature t indices used) v)
            (insert (findBestFeature t indices used) used))))
termination_by eligCount t used
decreasing_by exact eligCount_insert_lt t indices used h

/-- Indices of all data rows, as built by `train`. -/
def allIndices (t : DecisionTree) : List Nat :=
  List.range t.data.length

mutual
/-- The source's `predict`: a leaf returns its prediction; a decision node
looks the feature up in the instance, answering `"Unknown"` when absent, and
otherwise delegates to the scan of the children. -/
def predict (tr : TreeNode) (inst : List (String × String)) : String :=
  match tr with
  | .leaf p => p
  | .node f cs =>
    match inst.lookup f with
    | none => "Unknown"
    | some v => predictChildren cs v inst
termination_by sizeOf tr

/-- The child-scanning loop of the source's `predict`: recurse into the first
child whose edge value equals the instance's value, else `"Unknown"`. -/
def predictChildren (cs : List (String × TreeNode)) (v : String)
    (inst : List (String × String)) : String :=
  match cs with
  | [] => "Unknown"
  | c :: rest => if c.1 == v then predict c.2 inst else predictChildren rest v inst
termination_by sizeOf cs
decreasing_by
  all_goals try (obtain ⟨a, b⟩ := c; simp only [Prod.mk.sizeOf_spec])
  all_goals simp only [List.cons.sizeOf_spec, Prod.mk.sizeOf_spec]
  all_goals omega
end

mutual
/-- Number of decision nodes on the longest root-to-leaf path. -/
def height (tr : TreeNode) : Nat :=
  match tr with
  | .leaf _ => 0
  | .node _ cs => 1 + heightChildren cs
termination_by sizeOf tr

def heightChildren (cs : List (String × TreeNode)) : Nat :=
  match cs with
  | [] => 0
  | c :: rest => max (height c.2) (heightChildren rest)
termination_by sizeOf cs
decreasing_by
  all_goals try (obtain ⟨a, b⟩ := c; simp only [Prod.mk.sizeOf_spec])
  all_goals simp only [List.cons.sizeOf_spec, Prod.mk.sizeOf_spec]
  all_goals omega
end

/-- The training-row instance of row `r`: every non-target column name mapped
to that row's value, as in the interactive prediction format. -/
def rowInstance (t : DecisionTree) (r : Nat) : List (String × String) :=
  (t.headers.filter (fun h => h != t.targetColumn)).map (fun h => (h, featVal t h r))

/-- Every decision node of the tree stores pairwise distinct edge values on
its children. -/
inductive EdgeNodup : TreeNode → Prop
  | leaf (p : String) : EdgeNodup (.leaf p)
  | node (f : String) (cs : List (String × TreeNode)) :
      (cs.map Prod.fst).Nodup → (∀ c ∈ cs, EdgeNodup c.2) → EdgeNodup (.node f cs)

/-- No decision node uses a feature of `banned`, and each child subtree avoids
`banned` extended by the node's feature: along every root-to-leaf path the
decision features are distinct and disjoint from `banned`. -/
inductive PathsOk : Finset String → TreeNode → Prop
  | leaf (b : Finset String) (p : String) : PathsOk b (.leaf p)
  | node (b : Finset String) (f : String) (cs : List (String × TreeNode)) :
      f ∉ b → (∀ c ∈ cs, PathsOk (insert f b) c.2) → PathsOk b (.node f cs)

/-- Edge values stored on the children of a decision node (and `[]` at a leaf). -/
def childValues (tr : TreeNode) : List String :=
  match tr with
  | .leaf _ => []
  | .node _ cs => cs.map Prod.fst

/-- Modelled from the spec: distinct elements of a list in the order in which
each first appears while scanning from the left. -/
def firstOccurrences (l : List String) : List String :=
  l.foldl (fun acc x => if x ∈ acc then acc else acc ++ [x]) []

/-- Modelled from the spec (§4.3 step 4): the distinct values of `feature`
over the subset, in first-encountered order while scanning subset indices in
increasing order. -/
def specFirstEncounteredValues (t : DecisionTree) (indices : List Nat)
    (feature : String) : List String :=
  firstOccurrences (indices.map (featVal t feature))

/-- Modelled from the spec (§4.3 step 3): majority class with ties broken by
the class first encountered in index order. -/
def specFirstEncounteredMajority (t : DecisionTree) (indices : List Nat) : String :=
  (List.foldl
    (selStep (fun a b => decide (a < b)) (fun _ => true)
      (fun c => (indices.map (classOf t)).count c))
    ("", 0) (firstOccurrences (indices.map (classOf t)))).1

lemma buildTree_nil (t : DecisionTree) (used : Finset String) :
    buildTree t [] used = .leaf "Unknown" := by
  rw [buildTree, if_pos rfl]

lemma buildTree_pure (t : DecisionTree) (indices : List Nat) (used : Finset String)
    (hs : indices ≠ []) (hp : allSameClass t indices = true) :
    buildTree t indices used = .leaf (classOf t indices.headI) := by
  rw [buildTree, if_neg hs, if_pos hp]

lemma buildTree_noElig (t : DecisionTree) (indices : List Nat) (used : Finset String)
    (hs : indices ≠ []) (hp : allSameClass t indices = false)
    (hb : findBestFeature t indices used = "") :
    buildTree t indices used = .leaf (getMostCommonClass t indices) := by
  rw [buildTree, if_neg hs, if_neg (by rw [hp]; exact Bool.false_ne_true), dif_pos hb]

lemma buildTree_node (t : DecisionTree) (indices : List Nat) (used : Finset String)
    (hs : indices ≠ []) (hp : allSameClass t indices = false)
    (hb : findBestFeature t indices used ≠ "") :
    buildTree t indices used =
      .node (findBestFeature t indices used)
        ((groupKeys t indices (findBestFeature t indices used)).map
          (fun v =>
            (v, buildTree t (groupOf t indices (findBestFeature t indices used) v)
              (insert (findBestFeature t indices used) used)))) := by
  rw [buildTree, if_neg hs, if_neg (by rw [hp]; exact Bool.false_ne_true), dif_neg hb]

lemma mem_sortedKeys {l : List String} {x : String} : x ∈ sortedKeys l ↔ x ∈ l := by
  unfold sortedKeys
  rw [List.mem_insertionSort, List.mem_dedup]

lemma sortedKeys_nodup (l : List String) : (sortedKeys l).Nodup :=
  ((List.perm_insertionSort _ _).nodup_iff).2 (List.nodup_dedup l)

lemma sortedKeys_sorted (l : List String) : (sortedKeys l).Sorted (· ≤ ·) :=
  List.sorted_insertionSort _ _

lemma sortedKeys_sorted_lt (l : List String) : (sortedKeys l).Sorted (· < ·) :=
  List.Sorted.lt_of_le (sortedKeys_sorted l) (sortedKeys_nodup l)

lemma sortedKeys_eq_nil_iff {l : List String} : sortedKeys l = [] ↔ l = [] := by
  constructor
  · intro h
    by_contra hne
    obtain ⟨x, hx⟩ := List.exists_mem_of_ne_nil l hne
    have : x ∈ sortedKeys l := mem_sortedKeys.2 hx
    rw [h] at this
    cases this
  · intro h; subst h; rfl

lemma allSameClass_iff {t : DecisionTree} {indices : List Nat} :
    allSameClass t indices = true ↔
      ∀ i ∈ indices, classOf t i = classOf t indices.headI := by
  unfold allSameClass
  rw [List.all_eq_true]
  constructor
  · intro h i hi; exact beq_iff_eq.1 (h i hi)
  · intro h i hi; exact beq_iff_eq.2 (h i hi)

lemma lookup_map_self {g : String → String} {l : List String} {x : String}
    (hx : x ∈ l) :
    (l.map (fun h => (h, g h))).lookup x = some (g x) := by
  induction l with
  | nil => cases hx
  | cons a as ih =>
    by_cases hax : (x == a) = true
    · have hxa : x = a := beq_iff_eq.1 hax
      subst hxa
      simp [List.lookup]
    · have hfalse : (x == a) = false := Bool.not_eq_true _ ▸ eq_false_of_ne_true hax
      rcases List.mem_cons.1 hx with rfl | hmem
      · exact absurd (beq_iff_eq.2 rfl) hax
      · rw [List.map_cons]
        simp only [List.lookup, hfalse]
        exact ih hmem

lemma predictChildren_map_mem {g : String → TreeNode} {vs : List String} {v : String}
    (hv : v ∈ vs) (inst : List (String × String)) :
    predictChildren (vs.map (fun w => (w, g w))) v inst = predict (g v) inst := by
  induction vs with
  | nil => cases hv
  | cons w ws ih =>
    by_cases hwv : (w == v) = true
    · have hwv' : w = v := beq_iff_eq.1 hwv
      subst hwv'
      rw [List.map_cons, predictChildren]
      simp
    · have hfalse : (w == v) = false := eq_false_of_ne_true hwv
      rcases List.mem_cons.1 hv with rfl | hmem
      · exact absurd (beq_iff_eq.2 rfl) hwv
      · rw [List.map_cons, predictChildren]
        simp only [hfalse, Bool.false_eq_true, if_false]
        exact ih hmem

/-- Full characterization of the running-maximum scan: either nothing eligible
beats the accumulator and it is returned unchanged, or the result is the first
list element attaining the maximum score among the accumulator and all
eligible elements (strict predecessors score strictly less, later eligible
elements score no more). -/
lemma foldl_selStep_spec {α β : Type} [LinearOrder β] {ltb : β → β → Bool}
    (hltb : ∀ a b : β, ltb a b = true ↔ a < b) (ok : α → Bool) (score : α → β) :
    ∀ (l : List α) (acc : α × β),
      (l.foldl (selStep ltb ok score) acc = acc ∧
        ∀ x ∈ l, ok x = true → score x ≤ acc.2) ∨
      (∃ l₁ x l₂, l = l₁ ++ x :: l₂ ∧
        l.foldl (selStep ltb ok score) acc = (x, score x) ∧
        ok x = true ∧ acc.2 < score x ∧
        (∀ y ∈ l₁, ok y = true → score y < score x) ∧
        (∀ y ∈ l₂, ok y = true → score y ≤ score x)) := by
  intro l
  induction l with
  | nil => intro acc; exact Or.inl ⟨rfl, by simp⟩
  | cons a as ih =>
    intro acc
    rw [List.foldl_cons]
    by_cases hok : ok a = true
    · by_cases hlt : ltb acc.2 (score a) = true
      · have hstep : selStep ltb ok score acc a = (a, score a) := by
          unfold selStep; rw [if_pos hok, if_pos hlt]
        rw [hstep]
        have hlt' : acc.2 < score a := (hltb _ _).1 hlt
        rcases ih (a, score a) with ⟨heq, hall⟩ |
            ⟨m₁, x, m₂, hsplit, heq, hx, hgt, h₁, h₂⟩
        · right
          refine ⟨[], a, as, rfl, by rw [heq], hok, hlt', by simp, ?_⟩
          intro y hy hoky
          simpa using hall y hy hoky
        · right
          have hgt' : score a < score x := by simpa using hgt
          refine ⟨a :: m₁, x, m₂, by rw [hsplit, List.cons_append], heq, hx, lt_trans hlt' hgt', ?_, h₂⟩
          intro y hy hoky
          rcases List.mem_cons.1 hy with rfl | hmem
          · exact hgt'
          · exact h₁ y hmem hoky
      · have hstep : selStep ltb ok score acc a = acc := by
          unfold selStep; rw [if_pos hok, if_neg hlt]
        rw [hstep]
        have hle : score a ≤ acc.2 := by
          by_contra hcon
          exact hlt ((hltb _ _).2 (not_le.1 hcon))
        rcases ih acc with ⟨heq, hall⟩ |
            ⟨m₁, x, m₂, hsplit, heq, hx, hgt, h₁, h₂⟩
        · left
          refine ⟨heq, ?_⟩
          intro y hy hoky
          rcases List.mem_cons.1 hy with rfl | hmem
          · exact hle
          · exact hall y hmem hoky
        · right
          refine ⟨a :: m₁, x, m₂, by rw [hsplit, List.cons_append], heq, hx, hgt, ?_, h₂⟩
          intro y hy hoky
          rcases List.mem_cons.1 hy with rfl | hmem
          · exact lt_of_le_of_lt hle hgt
          · exact h₁ y hmem hoky
    · have hstep : selStep ltb ok score acc a = acc := by
        unfold selStep; rw [if_neg hok]
      rw [hstep]
      rcases ih acc with ⟨heq, hall⟩ |
          ⟨m₁, x, m₂, hsplit, heq, hx, hgt, h₁, h₂⟩
      · left
        refine ⟨heq, ?_⟩
        intro y hy hoky
        rcases List.mem_cons.1 hy with rfl | hmem
        · exact absurd hoky hok
        · exact hall y hmem hoky
      · right
        refine ⟨a :: m₁, x, m₂, by rw [hsplit, List.cons_append], heq, hx, hgt, ?_, h₂⟩
        intro y hy hoky
        rcases List.mem_cons.1 hy with rfl | hmem
        · exact absurd hoky hok
        · exact h₁ y hmem hoky

lemma sorted_le_of_append {l₁ l₂ : List String} {x y : String}
    (h : (l₁ ++ x :: l₂).Sorted (· ≤ ·)) (hy : y ∈ l₂) : x ≤ y := by
  have hsub : (x :: l₂).Sublist (l₁ ++ x :: l₂) := List.sublist_append_right l₁ _
  exact List.rel_of_sorted_cons (List.Pairwise.sublist hsub h) y hy

/-- Entropy of a list of class labels, in natural-log form: the sum over the
distinct labels of `negMulLog` of their empirical probabilities. -/
noncomputable def entropyOf (l : List String) : ℝ :=
  ∑ c ∈ l.toFinset, Real.negMulLog ((l.count c : ℝ) / l.length)

lemma calculateEntropy_eq (t : DecisionTree) (indices : List Nat) :
    calculateEntropy t indices = entropyOf (indices.map (classOf t)) / Real.log 2 := by
  unfold calculateEntropy entropyOf
  rcases eq_or_ne indices [] with rfl | hne
  · simp
  · rw [if_neg (by simp [hne])]
    have hlen : (0:ℝ) < indices.length := by
      exact_mod_cast List.length_pos.2 hne
    rw [Finset.sum_div]
    refine Finset.sum_congr rfl ?_
    intro c hc
    have hcmem : c ∈ indices.map (classOf t) := List.mem_toFinset.1 hc
    have hcount : 0 < (indices.map (classOf t)).count c := List.count_pos_iff.2 hcmem
    have hp : 0 < ((indices.map (classOf t)).count c : ℝ) / indices.length := by
      apply div_pos _ hlen
      exact_mod_cast hcount
    rw [if_pos hp, List.length_map, Real.negMulLog, Real.logb]
    ring

lemma entropyOf_nonneg (l : List String) : 0 ≤ entropyOf l := by
  refine Finset.sum_nonneg ?_
  intro c hc
  rcases eq_or_ne l [] with rfl | hne
  · simp at hc
  · have hlen : (0:ℝ) < l.length := by exact_mod_cast List.length_pos.2 hne
    refine Real.negMulLog_nonneg (div_nonneg (by positivity) hlen.le) ?_
    rw [div_le_one hlen]
    exact_mod_cast List.count_le_length c l

lemma entropyOf_eq_zero_iff (l : List String) :
    entropyOf l = 0 ↔ l = [] ∨ ∀ a ∈ l, ∀ b ∈ l, a = b := by
  rcases eq_or_ne l [] with rfl | hne
  · simp [entropyOf]
  · have hlen : (0:ℝ) < l.length := by exact_mod_cast List.length_pos.2 hne
    constructor
    · intro hz
      right
      intro a ha b hb
      have hterm :
          ∀ c ∈ l.toFinset, Real.negMulLog ((l.count c : ℝ) / l.length) = 0 := by
        refine (Finset.sum_eq_zero_iff_of_nonneg ?_).1 hz
        intro c hc
        refine Real.negMulLog_nonneg (div_nonneg (by positivity) hlen.le) ?_
        rw [div_le_one hlen]
        exact_mod_cast List.count_le_length c l
      have ha' := hterm a (List.mem_toFinset.2 ha)
      have hp : 0 < ((l.count a : ℝ) / l.length) := by
        apply div_pos _ hlen
        exact_mod_cast List.count_pos_iff.2 ha
      have hp1 : ((l.count a : ℝ) / l.length) = 1 := by
        rw [Real.negMulLog, neg_mul, neg_eq_zero, mul_eq_zero] at ha'
        rcases ha' with h | h
        · exact absurd h (ne_of_gt hp)
        · rcases Real.log_eq_zero.1 h with h | h | h
          · exact absurd h (ne_of_gt hp)
          · exact h
          · exfalso; rw [h] at hp; linarith
      have hcount : l.count a = l.length := by
        have := (div_eq_one_iff_eq (ne_of_gt hlen)).1 hp1
        exact_mod_cast this
      exact List.count_eq_length.1 hcount b hb
    · intro hpure
      rcases hpure with h | hpure
      · exact absurd h hne
      · refine Finset.sum_eq_zero ?_
        intro c hc
        have hcmem : c ∈ l := List.mem_toFinset.1 hc
        have hcount : l.count c = l.length :=
          List.count_eq_length.2 (fun b hb => hpure c hcmem b hb)
        rw [hcount, div_self (ne_of_gt hlen), Real.negMulLog_one]

lemma count_map_fst_filter (l : List (String × String)) (v : String) :
    (l.map Prod.fst).count v = (l.filter (fun x => x.1 == v)).length := by
  rw [List.count_eq_countP, List.countP_map, List.countP_eq_length_filter]
  congr 1

lemma count_map_snd_filter (l : List (String × String)) (c : String) :
    (l.map Prod.snd).count c = (l.filter (fun x => x.2 == c)).length := by
  rw [List.count_eq_countP, List.countP_map, List.countP_eq_length_filter]
  congr 1

lemma sum_count_eq_length (s : List String) (S : Finset String)
    (hsub : ∀ x ∈ s, x ∈ S) : ∑ v ∈ S, s.count v = s.length := by
  have h := Multiset.sum_count_eq_card (s := S) (m := (s : Multiset String))
    (fun a ha => hsub a (by simpa using ha))
  simpa [Multiset.coe_count, Multiset.coe_card] using h

lemma filter_snd_count_comm (l : List (String × String)) (v c : String) :
    ((l.filter (fun x => x.1 == v)).map Prod.snd).count c =
      ((l.filter (fun x => x.2 == c)).map Prod.fst).count v := by
  rw [List.count_eq_countP, List.countP_map, List.countP_filter,
    List.count_eq_countP, List.countP_map, List.countP_filter]
  refine List.countP_congr ?_
  intro x _
  simp only [Function.comp_apply, Bool.and_eq_true, beq_iff_eq]
  exact and_comm

/-- Concavity of entropy: the size-weighted average of the group entropies of
a partition of `l` by first components is at most the entropy of the second
components of `l` (Jensen's inequality for `negMulLog`, applied per class). -/
lemma entropyOf_cond_le (l : List (String × String)) :
    ∑ v ∈ (l.map Prod.fst).toFinset,
        (((l.filter (fun x => x.1 == v)).length : ℝ) / l.length) *
          entropyOf ((l.filter (fun x => x.1 == v)).map Prod.snd)
      ≤ entropyOf (l.map Prod.snd) := by
  rcases eq_or_ne l [] with rfl | hne
  · simp [entropyOf]
  have hN : (0:ℝ) < l.length := by exact_mod_cast List.length_pos.2 hne
  have hNv : ∀ v ∈ (l.map Prod.fst).toFinset,
      0 < ((l.filter (fun x => x.1 == v)).length : ℝ) := by
    intro v hv
    have hvm : v ∈ l.map Prod.fst := List.mem_toFinset.1 hv
    have hcp : 0 < (l.map Prod.fst).count v := List.count_pos_iff.2 hvm
    rw [count_map_fst_filter] at hcp
    exact_mod_cast hcp
  have hgroup : ∀ v ∈ (l.map Prod.fst).toFinset,
      entropyOf ((l.filter (fun x => x.1 == v)).map Prod.snd) =
        ∑ c ∈ (l.map Prod.snd).toFinset,
          Real.negMulLog
            ((((l.filter (fun x => x.1 == v)).map Prod.snd).count c : ℝ) /
              (l.filter (fun x => x.1 == v)).length) := by
    intro v hv
    unfold entropyOf
    rw [List.length_map]
    refine Finset.sum_subset ?_ ?_
    · intro c hcm
      rcases List.mem_map.1 (List.mem_toFinset.1 hcm) with ⟨x, hx, rfl⟩
      exact List.mem_toFinset.2 (List.mem_map.2 ⟨x, List.mem_of_mem_filter hx, rfl⟩)
    · intro c hcC hcnot
      have hz : ((l.filter (fun x => x.1 == v)).map Prod.snd).count c = 0 :=
        List.count_eq_zero.2 (fun hmem => hcnot (List.mem_toFinset.2 hmem))
      rw [hz]
      simp
  have hjensen : ∀ c ∈ (l.map Prod.snd).toFinset,
      ∑ v ∈ (l.map Prod.fst).toFinset,
          (((l.filter (fun x => x.1 == v)).length : ℝ) / l.length) *
            Real.negMulLog
              ((((l.filter (fun x => x.1 == v)).map Prod.snd).count c : ℝ) /
                (l.filter (fun x => x.1 == v)).length)
        ≤ Real.negMulLog (((l.map Prod.snd).count c : ℝ) / l.length) := by
    intro c hc
    have h₀ : ∀ v ∈ (l.map Prod.fst).toFinset,
        0 ≤ ((l.filter (fun x => x.1 == v)).length : ℝ) / l.length := by
      intro v hv
      positivity
    have hsumNv : ∑ v ∈ (l.map Prod.fst).toFinset,
        ((l.filter (fun x => x.1 == v)).length : ℝ) = l.length := by
      have hnat : ∑ v ∈ (l.map Prod.fst).toFinset,
          (l.filter (fun x => x.1 == v)).length = l.length := by
        rw [Finset.sum_congr rfl (fun v _ => (count_map_fst_filter l v).symm),
          sum_count_eq_length _ _ (fun x hx => List.mem_toFinset.2 hx),
          List.length_map]
      exact_mod_cast hnat
    have h₁ : ∑ v ∈ (l.map Prod.fst).toFinset,
        ((l.filter (fun x => x.1 == v)).length : ℝ) / l.length = 1 := by
      rw [← Finset.sum_div, hsumNv, div_self (ne_of_gt hN)]
    have hmemIci : ∀ v ∈ (l.map Prod.fst).toFinset,
        ((((l.filter (fun x => x.1 == v)).map Prod.snd).count c : ℝ) /
          (l.filter (fun x => x.1 == v)).length) ∈ Set.Ici (0:ℝ) := by
      intro v hv
      have hge : (0:ℝ) ≤ (((l.filter (fun x => x.1 == v)).map Prod.snd).count c : ℝ) /
          (l.filter (fun x => x.1 == v)).length := by positivity
      exact hge
    have hjen := Real.concaveOn_negMulLog.le_map_sum h₀ h₁ hmemIci
    have hcm : ∑ v ∈ (l.map Prod.fst).toFinset,
        (((l.filter (fun x => x.1 == v)).length : ℝ) / l.length) •
          ((((l.filter (fun x => x.1 == v)).map Prod.snd).count c : ℝ) /
            (l.filter (fun x => x.1 == v)).length)
        = ((l.map Prod.snd).count c : ℝ) / l.length := by
      have hterm : ∀ v ∈ (l.map Prod.fst).toFinset,
          (((l.filter (fun x => x.1 == v)).length : ℝ) / l.length) •
            ((((l.filter (fun x => x.1 == v)).map Prod.snd).count c : ℝ) /
              (l.filter (fun x => x.1 == v)).length)
          = (((l.filter (fun x => x.1 == v)).map Prod.snd).count c : ℝ) / l.length := by
        intro v hv
        have hv0 := hNv v hv
        rw [smul_eq_mul]
        field_simp
        ring
      rw [Finset.sum_congr rfl hterm, ← Finset.sum_div]
      congr 1
      have hnat : ∑ v ∈ (l.map Prod.fst).toFinset,
          ((l.filter (fun x => x.1 == v)).map Prod.snd).count c =
            (l.map Prod.snd).count c := by
        rw [Finset.sum_congr rfl (fun v _ => filter_snd_count_comm l v c),
          sum_count_eq_length]
        · rw [List.length_map, count_map_snd_filter]
        · intro x hx
          rcases List.mem_map.1 hx with ⟨y, hy, rfl⟩
          exact List.mem_toFinset.2 (List.mem_map.2 ⟨y, List.mem_of_mem_filter hy, rfl⟩)
      exact_mod_cast hnat
    rw [hcm] at hjen
    calc ∑ v ∈ (l.map Prod.fst).toFinset,
          (((l.filter (fun x => x.1 == v)).length : ℝ) / l.length) *
            Real.negMulLog
              ((((l.filter (fun x => x.1 == v)).map Prod.snd).count c : ℝ) /
                (l.filter (fun x => x.1 == v)).length)
        = ∑ v ∈ (l.map Prod.fst).toFinset,
          (((l.filter (fun x => x.1 == v)).length : ℝ) / l.length) •
            Real.negMulLog
              ((((l.filter (fun x => x.1 == v)).map Prod.snd).count c : ℝ) /
                (l.filter (fun x => x.1 == v)).length) := by
          simp [smul_eq_mul]
      _ ≤ Real.negMulLog (((l.map Prod.snd).count c : ℝ) / l.length) := hjen
  calc ∑ v ∈ (l.map Prod.fst).toFinset,
        (((l.filter (fun x => x.1 == v)).length : ℝ) / l.length) *
          entropyOf ((l.filter (fun x => x.1 == v)).map Prod.snd)
      = ∑ v ∈ (l.map Prod.fst).toFinset, ∑ c ∈ (l.map Prod.snd).toFinset,
          (((l.filter (fun x => x.1 == v)).length : ℝ) / l.length) *
            Real.negMulLog
              ((((l.filter (fun x => x.1 == v)).map Prod.snd).count c : ℝ) /
                (l.filter (fun x => x.1 == v)).length) := by
        refine Finset.sum_congr rfl ?_
        intro v hv
        rw [hgroup v hv, Finset.mul_sum]
    _ = ∑ c ∈ (l.map Prod.snd).toFinset, ∑ v ∈ (l.map Prod.fst).toFinset,
          (((l.filter (fun x => x.1 == v)).length : ℝ) / l.length) *
            Real.negMulLog
              ((((l.filter (fun x => x.1 == v)).map Prod.snd).count c : ℝ) /
                (l.filter (fun x => x.1 == v)).length) := Finset.sum_comm
    _ ≤ ∑ c ∈ (l.map Prod.snd).toFinset,
          Real.negMulLog (((l.map Prod.snd).count c : ℝ) / l.length) :=
        Finset.sum_le_sum hjensen
    _ = entropyOf (l.map Prod.snd) := by
        unfold entropyOf
        rw [List.length_map]

lemma calculateInformationGain_eq (t : DecisionTree) (s : List Nat) (f : String) :
    calculateInformationGain t s f =
      (entropyOf (s.map (classOf t)) -
        ∑ v ∈ (s.map (featVal t f)).toFinset,
          ((groupOf t s f v).length : ℝ) / s.length *
            entropyOf ((groupOf t s f v).map (classOf t))) / Real.log 2 := by
  unfold calculateInformationGain
  rw [calculateEntropy_eq, sub_div, Finset.sum_div]
  congr 1
  refine Finset.sum_congr rfl ?_
  intro v hv
  rw [calculateEntropy_eq, mul_div_assoc]

/-- Non-negativity of information gain (concavity of entropy). -/
lemma informationGain_nonneg (t : DecisionTree) (s : List Nat) (f : String) :
    0 ≤ calculateInformationGain t s f := by
  rw [calculateInformationGain_eq]
  apply div_nonneg _ (Real.log_nonneg (by norm_num))
  rw [sub_nonneg]
  have key := entropyOf_cond_le (s.map (fun i => (featVal t f i, classOf t i)))
  simp only [List.map_map, List.filter_map, List.length_map, Function.comp] at key
  unfold groupOf
  exact key

lemma real_ltb_iff : ∀ a b : ℝ, (decide (a < b)) = true ↔ a < b := by
  intro a b
  simp

/-- When nothing is eligible, `findBestFeature` returns the sentinel `""`. -/
lemma findBestFeature_no_eligible (t : DecisionTree) (s : List Nat)
    (used : Finset String)
    (h : ∀ f ∈ t.headers, ¬(f ≠ t.targetColumn ∧ f ∉ used)) :
    findBestFeature t s used = "" := by
  unfold findBestFeature
  rcases foldl_selStep_spec real_ltb_iff
      (fun f => decide (f ≠ t.targetColumn ∧ f ∉ used))
      (fun f => calculateInformationGain t s f) t.headers ("", -1) with
    ⟨heq, _⟩ | ⟨l₁, x, l₂, hsplit, heq, hx, _, _, _⟩
  · rw [heq]
  · exfalso
    have hxmem : x ∈ t.headers := by
      rw [hsplit]
      exact List.mem_append_right l₁ (List.mem_cons_self x l₂)
    exact h x hxmem (of_decide_eq_true hx)

/-- With no empty-named header, the sentinel `""` is returned exactly when no
eligible feature remains. -/
lemma findBestFeature_eq_empty_iff (t : DecisionTree) (s : List Nat)
    (used : Finset String) (hne : "" ∉ t.headers) :
    findBestFeature t s used = "" ↔
      ∀ f ∈ t.headers, ¬(f ≠ t.targetColumn ∧ f ∉ used) := by
  constructor
  · intro hz f hf helig
    rcases foldl_selStep_spec real_ltb_iff
        (fun f => decide (f ≠ t.targetColumn ∧ f ∉ used))
        (fun f => calculateInformationGain t s f) t.headers ("", -1) with
      ⟨heq, hall⟩ | ⟨l₁, x, l₂, hsplit, heq, hx, _, _, _⟩
    · have hle := hall f hf (decide_eq_true helig)
      have hge := informationGain_nonneg t s f
      simp only at hle
      linarith
    · unfold findBestFeature at hz
      rw [heq] at hz
      simp only at hz
      rw [hz] at hsplit
      exact hne (by rw [hsplit]; exact List.mem_append_right l₁ (List.mem_cons_self _ l₂))
  · exact findBestFeature_no_eligible t s used

/-- A non-sentinel result of `findBestFeature` is an eligible header that
maximizes the information gain, and every strictly earlier eligible header
scores strictly less (the first-in-header-order tie-break). -/
lemma findBestFeature_split (t : DecisionTree) (s : List Nat) (used : Finset String)
    (hbf : findBestFeature t s used ≠ "") :
    ∃ l₁ l₂, t.headers = l₁ ++ findBestFeature t s used :: l₂ ∧
      (findBestFeature t s used ≠ t.targetColumn ∧ findBestFeature t s used ∉ used) ∧
      (∀ y ∈ l₁, y ≠ t.targetColumn ∧ y ∉ used →
        calculateInformationGain t s y <
          calculateInformationGain t s (findBestFeature t s used)) ∧
      (∀ y ∈ l₂, y ≠ t.targetColumn ∧ y ∉ used →
        calculateInformationGain t s y ≤
          calculateInformationGain t s (findBestFeature t s used)) := by
  rcases foldl_selStep_spec real_ltb_iff
      (fun f => decide (f ≠ t.targetColumn ∧ f ∉ used))
      (fun f => calculateInformationGain t s f) t.headers ("", -1) with
    ⟨heq, _⟩ | ⟨l₁, x, l₂, hsplit, heq, hx, _, h₁, h₂⟩
  · exfalso
    apply hbf
    unfold findBestFeature
    rw [heq]
  · have hfx : findBestFeature t s used = x := by
      unfold findBestFeature
      rw [heq]
    refine ⟨l₁, l₂, by rw [hfx, hsplit], ?_, ?_, ?_⟩
    · rw [hfx]; exact of_decide_eq_true hx
    · intro y hy helig
      rw [hfx]
      exact h₁ y hy (decide_eq_true helig)
    · intro y hy helig
      rw [hfx]
      exact h₂ y hy (decide_eq_true helig)

/-- On a two-column header `[f, target]`, the unique eligible feature `f` is
always selected (its gain is non-negative, hence beats the initial `-1`). -/
lemma findBestFeature_pair (t : DecisionTree) (s : List Nat) (used : Finset String)
    (f : String) (hh : t.headers = [f, t.targetColumn]) (hf : f ≠ t.targetColumn)
    (hfu : f ∉ used) : findBestFeature t s used = f := by
  unfold findBestFeature
  rw [hh, List.foldl_cons, List.foldl_cons, List.foldl_nil]
  have h1 : selStep (fun a b => decide (a < b))
      (fun f => decide (f ≠ t.targetColumn ∧ f ∉ used))
      (fun f => calculateInformationGain t s f) ("", -1) f =
      (f, calculateInformationGain t s f) := by
    unfold selStep
    rw [if_pos (decide_eq_true ⟨hf, hfu⟩), if_pos]
    exact decide_eq_true
      (lt_of_lt_of_le (by norm_num) (informationGain_nonneg t s f))
  rw [h1]
  have h2 : selStep (fun a b => decide (a < b))
      (fun f => decide (f ≠ t.targetColumn ∧ f ∉ used))
      (fun f => calculateInformationGain t s f)
      (f, calculateInformationGain t s f) t.targetColumn =
      (f, calculateInformationGain t s f) := by
    unfold selStep
    rw [if_neg]
    intro hcon
    exact (of_decide_eq_true hcon).1 rfl
  rw [h2]

lemma nat_ltb_iff : ∀ a b : Nat, (decide (a < b)) = true ↔ a < b := by
  intro a b
  simp

/-- The most common class is a class of the subset with maximal count, and it
is the lexicographically least among the classes attaining that count. -/
lemma getMostCommonClass_spec (t : DecisionTree) (s : List Nat) (hs : s ≠ []) :
    getMostCommonClass t s ∈ s.map (classOf t) ∧
    (∀ c ∈ s.map (classOf t),
      (s.map (classOf t)).count c ≤ (s.map (classOf t)).count (getMostCommonClass t s)) ∧
    (∀ c ∈ s.map (classOf t),
      (s.map (classOf t)).count c = (s.map (classOf t)).count (getMostCommonClass t s) →
        getMostCommonClass t s ≤ c) := by
  have hmapne : s.map (classOf t) ≠ [] := by
    intro hcon
    exact hs (List.map_eq_nil_iff.1 hcon)
  rcases foldl_selStep_spec nat_ltb_iff (fun _ => true)
      (fun c => (s.map (classOf t)).count c) (sortedKeys (s.map (classOf t)))
      ("", 0) with ⟨heq, hall⟩ | ⟨l₁, x, l₂, hsplit, heq, _, _, h₁, h₂⟩
  · exfalso
    obtain ⟨c₀, hc₀⟩ := List.exists_mem_of_ne_nil _ hmapne
    have hk : c₀ ∈ sortedKeys (s.map (classOf t)) := mem_sortedKeys.2 hc₀
    have hle := hall c₀ hk rfl
    have hpos : 0 < (s.map (classOf t)).count c₀ := List.count_pos_iff.2 hc₀
    simp only at hle
    omega
  · have hfx : getMostCommonClass t s = x := by
      unfold getMostCommonClass
      rw [heq]
    have hxmem : x ∈ sortedKeys (s.map (classOf t)) := by
      rw [hsplit]
      exact List.mem_append_right l₁ (List.mem_cons_self x l₂)
    refine ⟨?_, ?_, ?_⟩
    · rw [hfx]; exact mem_sortedKeys.1 hxmem
    · intro c hc
      rw [hfx]
      have hck : c ∈ sortedKeys (s.map (classOf t)) := mem_sortedKeys.2 hc
      rw [hsplit] at hck
      rcases List.mem_append.1 hck with hcl | hcr
      · exact le_of_lt (h₁ c hcl rfl)
      · rcases List.mem_cons.1 hcr with rfl | hcl₂
        · exact le_refl _
        · exact h₂ c hcl₂ rfl
    · intro c hc hcnt
      rw [hfx] at hcnt ⊢
      have hck : c ∈ sortedKeys (s.map (classOf t)) := mem_sortedKeys.2 hc
      rw [hsplit] at hck
      rcases List.mem_append.1 hck with hcl | hcr
      · exfalso
        have := h₁ c hcl rfl
        simp only at this hcnt
        omega
      · rcases List.mem_cons.1 hcr with rfl | hcl₂
        · exact le_refl _
        · have hsorted : (l₁ ++ x :: l₂).Sorted (· ≤ ·) := by
            rw [← hsplit]
            exact sortedKeys_sorted _
          exact sorted_le_of_append hsorted hcl₂

/-- C6: for every subset and every feature, the information gain — the
subset's entropy minus the size-weighted sum of the entropies of the groups
obtained by partitioning the subset on the feature's value — is at least 0. -/
theorem claim_C6_gain_nonneg (t : DecisionTree) (s : List Nat) (f : String) :
    0 ≤ calculateInformationGain t s f :=
  informationGain_nonneg t s f

/-- C7: entropy is non-negative, entropy of the empty subset is 0, and entropy
is 0 exactly when the subset is empty or class-pure. -/
theorem claim_C7_entropy (t : DecisionTree) (s : List Nat) :
    0 ≤ calculateEntropy t s ∧
    calculateEntropy t [] = 0 ∧
    (calculateEntropy t s = 0 ↔
      s = [] ∨ ∀ i ∈ s, ∀ j ∈ s, classOf t i = classOf t j) := by
  have hlog : (0:ℝ) < Real.log 2 := Real.log_pos (by norm_num)
  refine ⟨?_, ?_, ?_⟩
  · rw [calculateEntropy_eq]
    exact div_nonneg (entropyOf_nonneg _) hlog.le
  · rw [calculateEntropy_eq]
    simp [entropyOf]
  · rw [calculateEntropy_eq, div_eq_zero_iff]
    constructor
    · rintro (hz | hz)
      · rcases (entropyOf_eq_zero_iff _).1 hz with hmap | hpure
        · left
          exact List.map_eq_nil_iff.1 hmap
        · right
          intro i hi j hj
          exact hpure _ (List.mem_map_of_mem _ hi) _ (List.mem_map_of_mem _ hj)
      · exact absurd hz (ne_of_gt hlog)
    · intro h
      left
      apply (entropyOf_eq_zero_iff _).2
      rcases h with rfl | hpure
      · left
        simp
      · right
        intro a ha b hb
        rcases List.mem_map.1 ha with ⟨i, hi, rfl⟩
        rcases List.mem_map.1 hb with ⟨j, hj, rfl⟩
        exact hpure i hi j hj

/-- Concrete two-row dataset: feature column `f` with values `b`, `a` (in that
scan order) and target column `t` with classes `x`, `y`. -/
def exA : DecisionTree := ⟨[["b", "x"], ["a", "y"]], ["f", "t"], "t"⟩

/-- Concrete two-row dataset whose rows agree on feature `f` but carry the
equally frequent classes `z` (row 0) and `a` (row 1). -/
def exB : DecisionTree := ⟨[["a", "z"], ["a", "a"]], ["f", "t"], "t"⟩

lemma exA_bestFeature : findBestFeature exA [0, 1] ∅ = "f" :=
  findBestFeature_pair exA [0, 1] ∅ "f" rfl (by decide) (by simp)

lemma exA_build : buildTree exA [0, 1] ∅ =
    .node "f" [("a", .leaf "y"), ("b", .leaf "x")] := by
  rw [buildTree_node exA [0, 1] ∅ (by decide) (by decide)
    (by rw [exA_bestFeature]; decide)]
  rw [exA_bestFeature]
  have hkeys : groupKeys exA [0, 1] "f" = ["a", "b"] := by
    unfold groupKeys
    have hmap : [0, 1].map (featVal exA "f") = ["b", "a"] := by decide
    rw [hmap]
    unfold sortedKeys
    have hd : (["b", "a"] : List String).dedup = ["b", "a"] := by decide
    rw [hd]
    simp [List.insertionSort, List.orderedInsert] <;> decide
  rw [hkeys, List.map_cons, List.map_cons, List.map_nil]
  have h1 : groupOf exA [0, 1] "f" "a" = [1] := by decide
  have h2 : groupOf exA [0, 1] "f" "b" = [0] := by decide
  rw [h1, h2]
  rw [buildTree_pure exA [1] _ (by decide) (by decide),
    buildTree_pure exA [0] _ (by decide) (by decide)]
  rfl

lemma exB_bestFeature : findBestFeature exB [0, 1] {"f"} = "" := by
  refine findBestFeature_no_eligible exB [0, 1] {"f"} ?_
  intro f hf
  fin_cases hf <;> simp [exB]

lemma exB_mostCommon : getMostCommonClass exB [0, 1] = "a" := by
  unfold getMostCommonClass
  have hmap : [0, 1].map (classOf exB) = ["z", "a"] := by decide
  rw [hmap]
  have hk : sortedKeys ["z", "a"] = ["a", "z"] := by
    unfold sortedKeys
    have hd : (["z", "a"] : List String).dedup = ["z", "a"] := by decide
    rw [hd]
    simp [List.insertionSort, List.orderedInsert] <;> decide
  rw [hk]
  decide

lemma exB_build : buildTree exB [0, 1] {"f"} = .leaf "a" := by
  rw [buildTree_noElig exB [0, 1] {"f"} (by decide) (by decide) exB_bestFeature,
    exB_mostCommon]

lemma headI_mem {α : Type} [Inhabited α] {l : List α} (h : l ≠ []) : l.headI ∈ l := by
  cases l with
  | nil => exact absurd rfl h
  | cons a as => exact List.mem_cons_self a as

lemma predictChildren_no_match {cs : List (String × TreeNode)} {v : String}
    {inst : List (String × String)} (h : ∀ c ∈ cs, c.1 ≠ v) :
    predictChildren cs v inst = "Unknown" := by
  induction cs with
  | nil => rw [predictChildren]
  | cons c rest ih =>
    rw [predictChildren, if_neg]
    · exact ih (fun c' hc' => h c' (List.mem_cons_of_mem c hc'))
    · intro hcon
      exact h c (List.mem_cons_self c rest) (beq_iff_eq.1 hcon)

lemma predictChildren_unique {cs : List (String × TreeNode)} {v : String}
    {inst : List (String × String)} {c : String × TreeNode}
    (hmem : c ∈ cs) (hcv : c.1 = v)
    (huniq : ∀ c' ∈ cs, c'.1 = v → c' = c) :
    predictChildren cs v inst = predict c.2 inst := by
  induction cs with
  | nil => cases hmem
  | cons d rest ih =>
    by_cases hdv : (d.1 == v) = true
    · have hd : d = c := huniq d (List.mem_cons_self d rest) (beq_iff_eq.1 hdv)
      rw [predictChildren, if_pos hdv, hd]
    · rw [predictChildren, if_neg hdv]
      have hmem' : c ∈ rest := by
        rcases List.mem_cons.1 hmem with rfl | hm
        · exact absurd (beq_iff_eq.2 hcv) hdv
        · exact hm
      exact ih hmem' (fun c' hc' h' => huniq c' (List.mem_cons_of_mem d hc') h')

/-- C1 (amended): at a decision node, prediction returns the exact label
`"Unknown"` when the instance lacks the node's feature; returns `"Unknown"`
when the instance has the feature but its value (exact case-sensitive string
equality) matches no child's edge value; and otherwise recurses into the
unique matching child. -/
theorem claim_C1_predict_unknown (f : String) (cs : List (String × TreeNode))
    (inst : List (String × String)) :
    (inst.lookup f = none → predict (.node f cs) inst = "Unknown") ∧
    (∀ v, inst.lookup f = some v → (∀ c ∈ cs, c.1 ≠ v) →
      predict (.node f cs) inst = "Unknown") ∧
    (∀ v c, inst.lookup f = some v → c ∈ cs → c.1 = v →
      (∀ c' ∈ cs, c'.1 = v → c' = c) →
      predict (.node f cs) inst = predict c.2 inst) := by
  refine ⟨?_, ?_, ?_⟩
  · intro hnone
    simp only [predict, hnone]
  · intro v hsome hnomatch
    simp only [predict, hsome]
    exact predictChildren_no_match hnomatch
  · intro v c hsome hmem hcv huniq
    simp only [predict, hsome]
    exact predictChildren_unique hmem hcv huniq

theorem claim_C1_predict_unknown_witness :
    (([("g", "u")] : List (String × String)).lookup "f" = none ∧
      predict (.node "f" [("a", TreeNode.leaf "x")]) [("g", "u")] = "Unknown") ∧
    (([("f", "b")] : List (String × String)).lookup "f" = some "b" ∧
      predict (.node "f" [("a", TreeNode.leaf "x")]) [("f", "b")] = "Unknown") ∧
    (([("f", "a")] : List (String × String)).lookup "f" = some "a" ∧
      predict (.node "f" [("a", TreeNode.leaf "x")]) [("f", "a")] =
        predict (TreeNode.leaf "x") [("f", "a")]) := by
  refine ⟨⟨rfl, ?_⟩, ⟨rfl, ?_⟩, ⟨rfl, ?_⟩⟩
  · exact (claim_C1_predict_unknown "f" [("a", TreeNode.leaf "x")] [("g", "u")]).1 rfl
  · refine (claim_C1_predict_unknown "f" [("a", TreeNode.leaf "x")] [("f", "b")]).2.1
      "b" rfl ?_
    intro c hc
    rw [List.mem_singleton] at hc
    subst hc
    decide
  · refine (claim_C1_predict_unknown "f" [("a", TreeNode.leaf "x")] [("f", "a")]).2.2
      "a" ("a", TreeNode.leaf "x") rfl (List.mem_singleton.2 rfl) rfl ?_
    intro c' hc' h'
    rw [List.mem_singleton] at hc'
    exact hc'

/-- C1 counterexample: on a built tree whose root is a decision node over
feature `f`, predicting with an empty instance yields the label `"Unknown"`,
not the claimed exact label `"unknown"`. -/
theorem claim_C1_counterexample :
    predict (buildTree exA [0, 1] ∅) [] = "Unknown" ∧
      ("Unknown" : String) ≠ "unknown" := by
  constructor
  · rw [exA_build]
    simp only [predict, List.lookup_nil]
  · decide

/-- C2 (amended): for every non-empty, non-pure subset with an eligible
feature, build partitions the subset by the best feature's distinct values,
builds each child from its group with the used set extended by that feature,
and stores the `(edge value, child)` pairs in strictly ascending lexicographic
order of edge value (the iteration order of the grouping `std::map`), one pair
per distinct value observed in the subset. -/
theorem claim_C2_children_sorted (t : DecisionTree) (s : List Nat)
    (used : Finset String) (hs : s ≠ []) (hp : allSameClass t s = false)
    (hbf : findBestFeature t s used ≠ "") :
    buildTree t s used =
      .node (findBestFeature t s used)
        ((groupKeys t s (findBestFeature t s used)).map
          (fun v => (v, buildTree t (groupOf t s (findBestFeature t s used) v)
            (insert (findBestFeature t s used) used)))) ∧
    (∀ v, v ∈ groupKeys t s (findBestFeature t s used) ↔
      v ∈ s.map (featVal t (findBestFeature t s used))) ∧
    (groupKeys t s (findBestFeature t s used)).Sorted (· < ·) :=
  ⟨buildTree_node t s used hs hp hbf,
    fun _ => mem_sortedKeys, sortedKeys_sorted_lt _⟩

theorem claim_C2_children_sorted_witness :
    (([0, 1] : List Nat) ≠ [] ∧ allSameClass exA [0, 1] = false ∧
      findBestFeature exA [0, 1] ∅ ≠ "") ∧
    (buildTree exA [0, 1] ∅ =
      .node (findBestFeature exA [0, 1] ∅)
        ((groupKeys exA [0, 1] (findBestFeature exA [0, 1] ∅)).map
          (fun v => (v, buildTree exA (groupOf exA [0, 1] (findBestFeature exA [0, 1] ∅) v)
            (insert (findBestFeature exA [0, 1] ∅) ∅)))) ∧
    (∀ v, v ∈ groupKeys exA [0, 1] (findBestFeature exA [0, 1] ∅) ↔
      v ∈ [0, 1].map (featVal exA (findBestFeature exA [0, 1] ∅))) ∧
    (groupKeys exA [0, 1] (findBestFeature exA [0, 1] ∅)).Sorted (· < ·)) :=
  ⟨⟨by decide, by decide, by rw [exA_bestFeature]; decide⟩,
    claim_C2_children_sorted exA [0, 1] ∅ (by decide) (by decide)
      (by rw [exA_bestFeature]; decide)⟩

/-- C2 counterexample: on the dataset `exA` the children of the built root are
stored in ascending lexicographic order `["a", "b"]`, not in the claimed
first-encountered scan order `["b", "a"]`. -/
theorem claim_C2_counterexample :
    childValues (buildTree exA [0, 1] ∅) = ["a", "b"] ∧
    specFirstEncounteredValues exA [0, 1] "f" = ["b", "a"] ∧
    (["a", "b"] : List String) ≠ ["b", "a"] := by
  refine ⟨?_, by decide, by decide⟩
  rw [exA_build]
  rfl

/-- C3 (amended): for every non-empty, non-pure subset with no eligible
feature remaining, build returns a leaf labelled with a majority class of the
subset, with ties between equally frequent classes broken in favour of the
lexicographically smallest tied class (the count map's iteration order), not
the first-encountered one. -/
theorem claim_C3_majority_leaf (t : DecisionTree) (s : List Nat)
    (used : Finset String) (hs : s ≠ []) (hp : allSameClass t s = false)
    (hbf : findBestFeature t s used = "") :
    buildTree t s used = .leaf (getMostCommonClass t s) ∧
    getMostCommonClass t s ∈ s.map (classOf t) ∧
    (∀ c ∈ s.map (classOf t),
      (s.map (classOf t)).count c ≤
        (s.map (classOf t)).count (getMostCommonClass t s)) ∧
    (∀ c ∈ s.map (classOf t),
      (s.map (classOf t)).count c =
          (s.map (classOf t)).count (getMostCommonClass t s) →
        getMostCommonClass t s ≤ c) := by
  obtain ⟨h1, h2, h3⟩ := getMostCommonClass_spec t s hs
  exact ⟨buildTree_noElig t s used hs hp hbf, h1, h2, h3⟩

theorem claim_C3_majority_leaf_witness :
    (([0, 1] : List Nat) ≠ [] ∧ allSameClass exB [0, 1] = false ∧
      findBestFeature exB [0, 1] {"f"} = "") ∧
    (buildTree exB [0, 1] {"f"} = .leaf (getMostCommonClass exB [0, 1]) ∧
    getMostCommonClass exB [0, 1] ∈ [0, 1].map (classOf exB) ∧
    (∀ c ∈ [0, 1].map (classOf exB),
      ([0, 1].map (classOf exB)).count c ≤
        ([0, 1].map (classOf exB)).count (getMostCommonClass exB [0, 1])) ∧
    (∀ c ∈ [0, 1].map (classOf exB),
      ([0, 1].map (classOf exB)).count c =
          ([0, 1].map (classOf exB)).count (getMostCommonClass exB [0, 1]) →
        getMostCommonClass exB [0, 1] ≤ c)) :=
  ⟨⟨by decide, by decide, exB_bestFeature⟩,
    claim_C3_majority_leaf exB [0, 1] {"f"} (by decide) (by decide) exB_bestFeature⟩

/-- C3 counterexample: on the tied dataset `exB` (classes `z` then `a` in scan
order) the built leaf carries `"a"`, the lexicographically smallest tied
class, while the claimed first-encountered tie-break yields `"z"`. -/
theorem claim_C3_counterexample :
    buildTree exB [0, 1] {"f"} = .leaf "a" ∧
    specFirstEncounteredMajority exB [0, 1] = "z" ∧
    ("a" : String) ≠ "z" :=
  ⟨exB_build, by decide, by decide⟩

/-- C4: `findBestFeature` considers exactly the headers that are neither the
target column nor used; with no empty-named header it returns the sentinel
`""` exactly when no eligible feature remains, and otherwise returns an
eligible header of maximal information gain such that every strictly earlier
eligible header in header order has strictly smaller gain (first-in-header-
order tie-break). -/
theorem claim_C4_bestFeature (t : DecisionTree) (s : List Nat)
    (used : Finset String) (hne : "" ∉ t.headers) :
    (findBestFeature t s used = "" ↔
      ∀ f ∈ t.headers, ¬(f ≠ t.targetColumn ∧ f ∉ used)) ∧
    (findBestFeature t s used ≠ "" →
      (findBestFeature t s used ≠ t.targetColumn ∧
        findBestFeature t s used ∉ used) ∧
      (∀ f ∈ t.headers, f ≠ t.targetColumn ∧ f ∉ used →
        calculateInformationGain t s f ≤
          calculateInformationGain t s (findBestFeature t s used)) ∧
      ∃ l₁ l₂, t.headers = l₁ ++ findBestFeature t s used :: l₂ ∧
        ∀ f ∈ l₁, f ≠ t.targetColumn ∧ f ∉ used →
          calculateInformationGain t s f <
            calculateInformationGain t s (findBestFeature t s used)) := by
  refine ⟨findBestFeature_eq_empty_iff t s used hne, ?_⟩
  intro hbf
  obtain ⟨l₁, l₂, hsplit, helig, hlt, hle⟩ := findBestFeature_split t s used hbf
  refine ⟨helig, ?_, l₁, l₂, hsplit, hlt⟩
  intro f hf he
  rw [hsplit] at hf
  rcases List.mem_append.1 hf with h | h
  · exact le_of_lt (hlt f h he)
  · rcases List.mem_cons.1 h with rfl | h
    · exact le_refl _
    · exact hle f h he

theorem claim_C4_bestFeature_witness :
    (("" : String) ∉ exA.headers) ∧
    ((findBestFeature exA [0, 1] ∅ = "" ↔
      ∀ f ∈ exA.headers, ¬(f ≠ exA.targetColumn ∧ f ∉ (∅ : Finset String))) ∧
    (findBestFeature exA [0, 1] ∅ ≠ "" →
      (findBestFeature exA [0, 1] ∅ ≠ exA.targetColumn ∧
        findBestFeature exA [0, 1] ∅ ∉ (∅ : Finset String)) ∧
      (∀ f ∈ exA.headers, f ≠ exA.targetColumn ∧ f ∉ (∅ : Finset String) →
        calculateInformationGain exA [0, 1] f ≤
          calculateInformationGain exA [0, 1] (findBestFeature exA [0, 1] ∅)) ∧
      ∃ l₁ l₂, exA.headers = l₁ ++ findBestFeature exA [0, 1] ∅ :: l₂ ∧
        ∀ f ∈ l₁, f ≠ exA.targetColumn ∧ f ∉ (∅ : Finset String) →
          calculateInformationGain exA [0, 1] f <
            calculateInformationGain exA [0, 1] (findBestFeature exA [0, 1] ∅))) :=
  ⟨by decide, claim_C4_bestFeature exA [0, 1] ∅ (by decide)⟩

/-- If a feature `X` functionally determines the target on the subset, then
for every row of the subset, prediction on the row's own feature values
returns the row's target value; `used` carries the path invariant that the
subset is constant (and equal to row `r`) on every used feature. -/
lemma buildTree_predict_correct (t : DecisionTree) (X : String)
    (hne : "" ∉ t.headers) (hX : X ∈ t.headers) (hXt : X ≠ t.targetColumn) :
    ∀ (n : Nat) (used : Finset String) (s : List Nat) (r : Nat),
      eligCount t used = n → r ∈ s →
      (∀ i ∈ s, ∀ j ∈ s, featVal t X i = featVal t X j → classOf t i = classOf t j) →
      (∀ i ∈ s, ∀ f ∈ used, featVal t f i = featVal t f r) →
      predict (buildTree t s used) (rowInstance t r) = classOf t r := by
  intro n
  induction n using Nat.strong_induction_on with
  | _ n IH =>
    intro used s r hn hr hdep hinv
    rcases eq_or_ne s [] with rfl | hs
    · cases hr
    by_cases hp : allSameClass t s = true
    · rw [buildTree_pure t s used hs hp]
      simp only [predict]
      exact (allSameClass_iff.1 hp r hr).symm
    · have hp' : allSameClass t s = false := eq_false_of_ne_true hp
      by_cases hbf : findBestFeature t s used = ""
      · exfalso
        have hnoelig := (findBestFeature_eq_empty_iff t s used hne).1 hbf
        have hXused : X ∈ used := by
          have hc := hnoelig X hX
          rw [not_and_or] at hc
          rcases hc with hc | hc
          · exact absurd hXt (by simpa using hc)
          · simpa using hc
        apply hp
        apply allSameClass_iff.2
        intro i hi
        have hIH : s.headI ∈ s := headI_mem hs
        have h1 : featVal t X i = featVal t X r := hinv i hi X hXused
        have h2 : featVal t X s.headI = featVal t X r := hinv s.headI hIH X hXused
        exact hdep i hi s.headI hIH (by rw [h1, h2])
      · rw [buildTree_node t s used hs hp' hbf]
        obtain ⟨hmem, hnt, _⟩ := findBestFeature_eligible t s used hbf
        have hlookup : (rowInstance t r).lookup (findBestFeature t s used) =
            some (featVal t (findBestFeature t s used) r) := by
          unfold rowInstance
          apply lookup_map_self
          rw [List.mem_filter]
          refine ⟨hmem, ?_⟩
          simp [hnt]
        simp only [predict, hlookup]
        have hv₀ : featVal t (findBestFeature t s used) r ∈
            groupKeys t s (findBestFeature t s used) := by
          apply mem_sortedKeys.2
          exact List.mem_map_of_mem _ hr
        rw [predictChildren_map_mem hv₀]
        refine IH (eligCount t (insert (findBestFeature t s used) used))
          (by rw [← hn]; exact eligCount_insert_lt t s used hbf)
          (insert (findBestFeature t s used) used) _ r rfl ?_ ?_ ?_
        · unfold groupOf
          rw [List.mem_filter]
          exact ⟨hr, beq_iff_eq.2 rfl⟩
        · intro i hi j hj
          exact hdep i (List.mem_of_mem_filter hi) j (List.mem_of_mem_filter hj)
        · intro i hi f hf
          rcases Finset.mem_insert.1 hf with rfl | hfu
          · have hiv := (List.mem_filter.1 hi).2
            exact beq_iff_eq.1 hiv
          · exact hinv i (List.mem_of_mem_filter hi) f hfu

/-- C5: when some single feature functionally determines the target, training
on all rows builds a tree that predicts every training row's own target value
on the instance reproducing that row's feature values exactly. -/
theorem claim_C5_round_trip (t : DecisionTree) (X : String)
    (hne : "" ∉ t.headers) (hX : X ∈ t.headers) (hXt : X ≠ t.targetColumn)
    (hdep : ∀ i ∈ allIndices t, ∀ j ∈ allIndices t,
      featVal t X i = featVal t X j → classOf t i = classOf t j)
    (r : Nat) (hr : r ∈ allIndices t) :
    predict (buildTree t (allIndices t) ∅) (rowInstance t r) = classOf t r :=
  buildTree_predict_correct t X hne hX hXt (eligCount t ∅) ∅ (allIndices t) r rfl
    hr hdep (fun _ _ f hf => absurd hf (Finset.not_mem_empty f))

theorem claim_C5_round_trip_witness :
    (("" : String) ∉ exA.headers ∧ "f" ∈ exA.headers ∧ "f" ≠ exA.targetColumn ∧
      (∀ i ∈ allIndices exA, ∀ j ∈ allIndices exA,
        featVal exA "f" i = featVal exA "f" j → classOf exA i = classOf exA j) ∧
      0 ∈ allIndices exA) ∧
    predict (buildTree exA (allIndices exA) ∅) (rowInstance exA 0) = classOf exA 0 :=
  ⟨⟨by decide, by decide, by decide, by decide, by decide⟩,
    claim_C5_round_trip exA "f" (by decide) (by decide) (by decide) (by decide)
      0 (by decide)⟩

lemma heightChildren_le {cs : List (String × TreeNode)} {n : Nat}
    (h : ∀ c ∈ cs, height c.2 ≤ n) : heightChildren cs ≤ n := by
  induction cs with
  | nil =>
    rw [heightChildren]
    omega
  | cons c rest ih =>
    rw [heightChildren]
    exact max_le (h c (List.mem_cons_self c rest))
      (ih fun c' hc' => h c' (List.mem_cons_of_mem c hc'))

lemma buildTree_height_le (t : DecisionTree) :
    ∀ (n : Nat) (used : Finset String) (s : List Nat), eligCount t used = n →
      height (buildTree t s used) ≤ eligCount t used := by
  intro n
  induction n using Nat.strong_induction_on with
  | _ n IH =>
    intro used s hn
    rcases eq_or_ne s [] with rfl | hs
    · rw [buildTree_nil, height]
      omega
    by_cases hp : allSameClass t s = true
    · rw [buildTree_pure t s used hs hp, height]
      omega
    have hp' : allSameClass t s = false := eq_false_of_ne_true hp
    by_cases hbf : findBestFeature t s used = ""
    · rw [buildTree_noElig t s used hs hp' hbf, height]
      omega
    rw [buildTree_node t s used hs hp' hbf, height]
    have hlt := eligCount_insert_lt t s used hbf
    have hch : heightChildren
        ((groupKeys t s (findBestFeature t s used)).map
          (fun v => (v, buildTree t (groupOf t s (findBestFeature t s used) v)
            (insert (findBestFeature t s used) used)))) ≤
        eligCount t (insert (findBestFeature t s used) used) := by
      apply heightChildren_le
      intro c hc
      rcases List.mem_map.1 hc with ⟨v, _, rfl⟩
      exact IH (eligCount t (insert (findBestFeature t s used) used))
        (by omega) _ _ rfl
    omega

/-- C8: the recursive build is total (it is a well-founded definition over the
shrinking count of eligible features), and the height of the resulting tree is
bounded by the number of eligible features, in particular by the number of
non-target feature columns when training starts with no used features. -/
theorem claim_C8_depth_bound (t : DecisionTree) (s : List Nat)
    (used : Finset String) :
    height (buildTree t s used) ≤ eligCount t used ∧
    height (buildTree t s ∅) ≤
      (t.headers.filter (fun f => f != t.targetColumn)).length := by
  refine ⟨buildTree_height_le t (eligCount t used) used s rfl, ?_⟩
  have h := buildTree_height_le t (eligCount t ∅) ∅ s rfl
  have heq : eligCount t ∅ =
      (t.headers.filter (fun f => f != t.targetColumn)).length := by
    unfold eligCount
    congr 1
    refine List.filter_congr ?_
    intro f _
    by_cases hf : f = t.targetColumn <;> simp [hf]
  omega

lemma buildTree_pathsOk (t : DecisionTree) :
    ∀ (n : Nat) (used : Finset String) (s : List Nat), eligCount t used = n →
      PathsOk used (buildTree t s used) := by
  intro n
  induction n using Nat.strong_induction_on with
  | _ n IH =>
    intro used s hn
    rcases eq_or_ne s [] with rfl | hs
    · rw [buildTree_nil]
      exact PathsOk.leaf used _
    by_cases hp : allSameClass t s = true
    · rw [buildTree_pure t s used hs hp]
      exact PathsOk.leaf used _
    have hp' : allSameClass t s = false := eq_false_of_ne_true hp
    by_cases hbf : findBestFeature t s used = ""
    · rw [buildTree_noElig t s used hs hp' hbf]
      exact PathsOk.leaf used _
    rw [buildTree_node t s used hs hp' hbf]
    obtain ⟨_, _, hnu⟩ := findBestFeature_eligible t s used hbf
    refine PathsOk.node used _ _ hnu ?_
    intro c hc
    rcases List.mem_map.1 hc with ⟨v, _, rfl⟩
    exact IH (eligCount t (insert (findBestFeature t s used) used))
      (by rw [← hn]; exact eligCount_insert_lt t s used hbf) _ _ rfl

/-- C9: in every tree produced by build, no feature appears on two distinct
decision nodes of one root-to-leaf path (each decision feature avoids the
used set accumulated on its path, and every child is built with its own used
set extended by exactly the parent's feature — in this value-passing model the
used sets of sibling branches are independent by construction). -/
theorem claim_C9_no_feature_reuse (t : DecisionTree) (s : List Nat)
    (used : Finset String) : PathsOk used (buildTree t s used) :=
  buildTree_pathsOk t (eligCount t used) used s rfl

lemma nodup_filter_length_le_one {cs : List (String × TreeNode)}
    (h : (cs.map Prod.fst).Nodup) (v : String) :
    (cs.filter (fun c => c.1 == v)).length ≤ 1 := by
  rw [← List.countP_eq_length_filter]
  have hc : cs.countP (fun c => c.1 == v) = (cs.map Prod.fst).count v := by
    rw [List.count_eq_countP, List.countP_map]
    rfl
  rw [hc]
  exact List.nodup_iff_count_le_one.1 h v

lemma buildTree_edgeNodup (t : DecisionTree) :
    ∀ (n : Nat) (used : Finset String) (s : List Nat), eligCount t used = n →
      EdgeNodup (buildTree t s used) := by
  intro n
  induction n using Nat.strong_induction_on with
  | _ n IH =>
    intro used s hn
    rcases eq_or_ne s [] with rfl | hs
    · rw [buildTree_nil]
      exact EdgeNodup.leaf _
    by_cases hp : allSameClass t s = true
    · rw [buildTree_pure t s used hs hp]
      exact EdgeNodup.leaf _
    have hp' : allSameClass t s = false := eq_false_of_ne_true hp
    by_cases hbf : findBestFeature t s used = ""
    · rw [buildTree_noElig t s used hs hp' hbf]
      exact EdgeNodup.leaf _
    rw [buildTree_node t s used hs hp' hbf]
    refine EdgeNodup.node _ _ ?_ ?_
    · rw [List.map_map]
      have hid : (Prod.fst ∘ fun v => (v, buildTree t
          (groupOf t s (findBestFeature t s used) v)
          (insert (findBestFeature t s used) used))) = id := by
        funext v
        rfl
      rw [hid, List.map_id]
      exact sortedKeys_nodup _
    · intro c hc
      rcases List.mem_map.1 hc with ⟨v, _, rfl⟩
      exact IH (eligCount t (insert (findBestFeature t s used) used))
        (by rw [← hn]; exact eligCount_insert_lt t s used hbf) _ _ rfl

/-- C10: in every tree produced by build, the edge values on the children of
each decision node are pairwise distinct, so at most one child of any decision
node can match a given instance value. -/
theorem claim_C10_edges_distinct (t : DecisionTree) (s : List Nat)
    (used : Finset String) :
    EdgeNodup (buildTree t s used) ∧
    ∀ f cs, buildTree t s used = TreeNode.node f cs →
      ∀ v, (cs.filter (fun c => c.1 == v)).length ≤ 1 := by
  have hnodup := buildTree_edgeNodup t (eligCount t used) used s rfl
  refine ⟨hnodup, ?_⟩
  intro f cs heq v
  rw [heq] at hnodup
  cases hnodup with
  | node _ _ hnd _ => exact nodup_filter_length_le_one hnd v

theorem claim_C10_edges_distinct_witness :
    EdgeNodup (buildTree exA [0, 1] ∅) ∧
    (([("a", TreeNode.leaf "y"), ("b", TreeNode.leaf "x")].filter
      (fun c => c.1 == "a")).length ≤ 1) :=
  ⟨(claim_C10_edges_distinct exA [0, 1] ∅).1,
    (claim_C10_edges_distinct exA [0, 1] ∅).2 "f"
      [("a", TreeNode.leaf "y"), ("b", TreeNode.leaf "x")] exA_build "a"⟩
